import Mathlib

set_option maxRecDepth 8000

/-!
Shallow embedding of the Bonds space of the BasicBonds model
(`lifelib/libraries/assets/BasicBonds_BAK3/Bonds/__init__.py`).

Dates are modelled as calendar dates with QuantLib's chronological
comparison and period arithmetic (adding years or months keeps the day of
month, clamped to the length of the target month).  Cashflow amounts are
modelled as rationals.  Outputs of the delegated QuantLib primitives
(`FixedRateBond.cashflows`, `redemptions`, `notional`, `cleanPrice`) enter
the model as data: a `Bond` record carries them as fields.  The Python
`assert` in `cashflows` is modelled by returning `Option`: `none` stands
for the raised `AssertionError`.
-/

/-- A calendar date, as QuantLib's `Date`: a year, a month (at most 12) and
a day of month (at most 31).  Comparison is chronological. -/
structure Date where
  year : Nat
  month : Nat
  day : Nat
  month_le : month ≤ 12
  day_le : day ≤ 31

/-- Numeric key realising the chronological order on dates (the analogue of
QuantLib's serial number for comparison purposes). -/
def Date.key (d : Date) : Nat := d.year * 10000 + d.month * 100 + d.day

instance : LE Date := ⟨fun a b => a.key ≤ b.key⟩

instance : LT Date := ⟨fun a b => a.key < b.key⟩

instance (a b : Date) : Decidable (a ≤ b) := inferInstanceAs (Decidable (a.key ≤ b.key))

instance (a b : Date) : Decidable (a < b) := inferInstanceAs (Decidable (a.key < b.key))

instance : DecidableEq Date := fun a b =>
  decidable_of_iff (a.year = b.year ∧ a.month = b.month ∧ a.day = b.day)
    (by
      constructor
      · rintro ⟨h1, h2, h3⟩
        cases a; cases b
        dsimp at h1 h2 h3
        subst h1; subst h2; subst h3; rfl
      · rintro rfl; exact ⟨rfl, rfl, rfl⟩)

/-- Gregorian leap-year rule. -/
def isLeapYear (y : Nat) : Bool := (y % 4 == 0 && y % 100 != 0) || y % 400 == 0

/-- Number of days in month `m` of year `y`. -/
def daysInMonth (m y : Nat) : Nat :=
  if m = 2 then (if isLeapYear y then 29 else 28)
  else if m = 4 ∨ m = 6 ∨ m = 9 ∨ m = 11 then 30
  else 31

/-- Add `n` years to a date, clamping the day of month to the length of the
target month (QuantLib's `Date` advance by years). -/
def Date.addYears (d : Date) (n : Nat) : Date :=
  ⟨d.year + n, d.month, min d.day (daysInMonth d.month (d.year + n)),
   d.month_le, le_trans (min_le_left _ _) d.day_le⟩

/-- Add `n` months to a date, carrying into the year and clamping the day of
month (QuantLib's `Date` advance by months). -/
def Date.addMonths (d : Date) (n : Nat) : Date :=
  ⟨d.year + (d.month + n - 1) / 12,
   (d.month + n - 1) % 12 + 1,
   min d.day (daysInMonth ((d.month + n - 1) % 12 + 1) (d.year + (d.month + n - 1) / 12)),
   by omega,
   le_trans (min_le_left _ _) d.day_le⟩

/-- Unit of a QuantLib `Period`. -/
inductive PeriodUnit where
  | Months : PeriodUnit
  | Years : PeriodUnit
deriving DecidableEq

/-- A QuantLib `Period`: a number of months or years. -/
structure Period where
  n : Nat
  unit : PeriodUnit

/-- Advance a date by a period (QuantLib's `Date + Period`). -/
def Date.addPeriod (d : Date) (p : Period) : Date :=
  match p.unit with
  | PeriodUnit.Years => d.addYears p.n
  | PeriodUnit.Months => d.addMonths p.n

/-- Build a date from literals, clamping the month to 12 and the day to 31
so that the bounds hold by construction (the clamps are inert on valid
calendar dates). -/
def mkDate (y m d : Nat) : Date :=
  ⟨y, min m 12, min d 31, min_le_right _ _, min_le_right _ _⟩

/-- A cashflow event delivered by QuantLib: a payment date and an amount. -/
structure Event where
  date : Date
  amount : ℚ

/-- The `dates` cell: `dates 0` is the valuation date `date_init`, and each
following projection date adds one year (`ql.Period('1Y')`). -/
def dates (d0 : Date) : Nat → Date
  | 0 => d0
  | t + 1 => (dates d0 t).addPeriod ⟨1, PeriodUnit.Years⟩

/-- The while-loop of the `t_length` cell: starting from `t`, increment `t`
while `dates t` is strictly before the end date, and return the first `t`
where it is not. -/
def tLengthFrom (d0 dEnd : Date) (t : Nat) : Nat :=
  if h : dates d0 t < dEnd then tLengthFrom d0 dEnd (t + 1) else t
termination_by dEnd.year + 1 - t
decreasing_by
  have hy : ∀ s, (dates d0 s).year = d0.year + s := by
    intro s
    induction s with
    | zero => rfl
    | succ n ih =>
      simp only [dates, Date.addPeriod, Date.addYears, ih]
      omega
  have h2 : (dates d0 t).key < dEnd.key := h
  have h3 := dEnd.month_le
  have h4 := dEnd.day_le
  simp only [Date.key, hy t] at h2
  omega

/-- The `t_length` cell: number of projection periods, computed by the
source's while loop starting at `t = 0`. -/
def t_length (d0 dEnd : Date) : Nat := tLengthFrom d0 dEnd 0

/-- The order check done by the `assert` in the `cashflows` cell: it fires
(when enabled) at every event that has a predecessor whose date is later. -/
def orderBad (checkOrder : Bool) (prev : Option Event) (e : Event) : Bool :=
  checkOrder &&
    match prev with
    | some p => decide (¬ p.date ≤ e.date)
    | none => false

/-- The inner while loop shared by the `cashflows` and `redemptions` cells:
walk the remaining event list, accumulating into the current bucket the
amounts of events with `lo ≤ date < hi`, stopping (without consuming) at the
first event with `hi ≤ date`, and skipping events before `lo`.  `prev` is
the last event consumed so far (the source's `leg[i-1]`); with `checkOrder`
set, an out-of-order adjacent pair aborts with `none` (the `assert`). -/
def scanBucket (checkOrder : Bool) (lo hi : Date) :
    Option Event → List Event → ℚ → Option (ℚ × Option Event × List Event)
  | prev, [], acc => some (acc, prev, [])
  | prev, e :: rest, acc =>
    if orderBad checkOrder prev e then none
    else if lo ≤ e.date ∧ e.date < hi then
      scanBucket checkOrder lo hi (some e) rest (acc + e.amount)
    else if hi ≤ e.date then some (acc, prev, e :: rest)
    else scanBucket checkOrder lo hi (some e) rest acc

/-- The outer `for t in range(...)` loop shared by `cashflows` and
`redemptions`: produce the buckets for indices `t, t+1, …, t+n-1`, threading
the event cursor (`prev` and the unconsumed suffix) across buckets. -/
def bucketsFrom (checkOrder : Bool) (axis : Nat → Date) :
    Nat → Nat → Option Event → List Event → Option (List ℚ)
  | _, 0, _, _ => some []
  | t, n + 1, prev, rest =>
    match scanBucket checkOrder (axis t) (axis (t + 1)) prev rest 0 with
    | none => none
    | some (b, prev2, rest2) =>
      match bucketsFrom checkOrder axis (t + 1) n prev2 rest2 with
      | none => none
      | some tail => some (b :: tail)

/-- The `cashflows` cell for one bond: bucket the bond's QuantLib cashflow
leg over the projection periods, with the order `assert` enabled.  `none`
models the raised `AssertionError`. -/
def cashflows (d0 dEnd : Date) (leg : List Event) : Option (List ℚ) :=
  bucketsFrom true (dates d0) 0 (t_length d0 dEnd) none leg

/-- The `redemptions` cell for one bond: identical loop but over the
redemption leg and without any order check. -/
def redemptions (d0 dEnd : Date) (leg : List Event) : Option (List ℚ) :=
  bucketsFrom false (dates d0) 0 (t_length d0 dEnd) none leg

/-- A row of `bond_data` together with the outputs of the delegated
QuantLib primitives for that bond (`fixed_rate_bond(id).cashflows()`,
`.redemptions()`, `.notional()`, `.cleanPrice()`), which the Python core
only consumes. -/
structure Bond where
  settlement_days : Nat
  face_value : ℚ
  issue_date : Date
  maturity_date : Date
  tenor : String
  coupon_rate : ℚ
  z_spread : ℚ
  cashflowLeg : List Event
  redemptionLeg : List Event
  notional : ℚ
  cleanPrice : ℚ

/-- The `cashflows_total` cell: for each period index, add up
`cashflows(i)[t]` over all bonds in the portfolio. -/
def cashflows_total (d0 dEnd : Date) (bonds : List Bond) : Option (List ℚ) :=
  (List.range (t_length d0 dEnd)).mapM fun t =>
    bonds.foldlM (fun acc b => (cashflows d0 dEnd b.cashflowLeg).map fun v => acc + v.getD t 0) 0

/-- The `redemptions_total` cell: for each period index, add up
`redemptions(i)[t]` over all bonds in the portfolio. -/
def redemptions_total (d0 dEnd : Date) (bonds : List Bond) : Option (List ℚ) :=
  (List.range (t_length d0 dEnd)).mapM fun t =>
    bonds.foldlM (fun acc b => (redemptions d0 dEnd b.redemptionLeg).map fun v => acc + v.getD t 0) 0

/-- The `market_values` cell: `notional * cleanPrice / 100` for each bond,
in portfolio order. -/
def market_values (bonds : List Bond) : List ℚ :=
  bonds.map fun b => b.notional * b.cleanPrice / 100

/-- Coupon frequency passed to `ql.Schedule`. -/
inductive Frequency where
  | Annual : Frequency
  | Semiannual : Frequency
deriving DecidableEq

/-- Business-day convention passed to `ql.Schedule`. -/
inductive BusinessDayConvention where
  | Unadjusted : BusinessDayConvention
deriving DecidableEq

/-- Date-generation rule passed to `ql.Schedule`. -/
inductive DateGenerationRule where
  | Backward : DateGenerationRule
deriving DecidableEq

/-- Calendar passed to `ql.Schedule` and `ql.ZeroCurve`. -/
inductive Calendar where
  | UnitedStates : Calendar
deriving DecidableEq

/-- The argument tuple the `schedule` cell passes to `ql.Schedule`;
building the actual date schedule from it is delegated to QuantLib. -/
structure ScheduleArgs where
  effectiveDate : Date
  terminationDate : Date
  tenor : Frequency
  calendar : Calendar
  convention : BusinessDayConvention
  terminationDateConvention : BusinessDayConvention
  rule : DateGenerationRule
  endOfMonth : Bool

/-- The `schedule` cell: schedule from issue date to maturity, semiannual
exactly when the bond's tenor label is the string `6Y`, annual otherwise. -/
def schedule (b : Bond) : ScheduleArgs :=
  ⟨b.issue_date, b.maturity_date,
   (if b.tenor = "6Y" then Frequency.Semiannual else Frequency.Annual),
   Calendar.UnitedStates,
   BusinessDayConvention.Unadjusted,
   BusinessDayConvention.Unadjusted,
   DateGenerationRule.Backward,
   false⟩

/-- The mutable global state of the delegated library that the model
touches: `ql.Settings.instance().evaluationDate`. -/
structure Settings where
  evaluationDate : Date

/-- The argument tuple the `riskfree_curve` cell passes to `ql.ZeroCurve`:
the valuation date followed by the valuation date shifted by each duration
of the zero-curve table, and rate `0` followed by the table's rates. -/
structure ZeroCurveArgs where
  spotDates : List Date
  spotRates : List ℚ

/-- The `riskfree_curve` cell as a state transformer over the library's
global settings: it assigns `dates 0` to the global evaluation date and
then builds the `ql.ZeroCurve` arguments; the prior evaluation date is
never written back. -/
def riskfree_curve (d0 : Date) (zero_curve : List (Period × ℚ)) (_s : Settings) :
    ZeroCurveArgs × Settings :=
  (⟨dates d0 0 :: zero_curve.map (fun q => (dates d0 0).addPeriod q.1),
    0 :: zero_curve.map (fun q => q.2)⟩,
   ⟨dates d0 0⟩)

/-- Ordering of events by date; the invariant the bucketing merge relies
on is that legs are non-decreasing under this relation. -/
def eventLE (a b : Event) : Prop := a.date ≤ b.date

instance (a b : Event) : Decidable (eventLE a b) :=
  inferInstanceAs (Decidable (a.date ≤ b.date))

instance : IsTrans Event eventLE := ⟨fun _ _ _ h1 h2 => Nat.le_trans h1 h2⟩

/-- A leg is date-sorted when every adjacent pair of events is in
non-decreasing date order (the invariant checked by the source's assert). -/
def eventsSorted (l : List Event) : Prop := List.Chain' eventLE l

instance eventsSortedDec : (l : List Event) → Decidable (eventsSorted l)
  | [] => isTrue (by simp [eventsSorted])
  | [_] => isTrue (by simp [eventsSorted])
  | a :: b :: l =>
    have : Decidable (eventsSorted (b :: l)) := eventsSortedDec (b :: l)
    decidable_of_iff (eventLE a b ∧ eventsSorted (b :: l))
      (by simp [eventsSorted, List.chain'_cons])

/-- Membership of an event in the half-open period `[lo, hi)`; written from
the spec's words for the bucket contract. -/
def inBucket (lo hi : Date) (e : Event) : Bool :=
  decide (lo ≤ e.date) && decide (e.date < hi)

/-- Written from the spec's words: bucket value `t` is the sum of `amount`
over all events with `axis(t) ≤ date < axis(t+1)`. -/
def specBucket (l : List Event) (lo hi : Date) : ℚ :=
  ((l.filter (inBucket lo hi)).map Event.amount).sum

/-- Written from the spec's words: the bucketed series is the array of
length `horizon_length()` of the per-period bucket sums. -/
def specBuckets (leg : List Event) (d0 dEnd : Date) : List ℚ :=
  (List.range (t_length d0 dEnd)).map fun t =>
    specBucket leg (dates d0 t) (dates d0 (t + 1))

/-- A strictly earlier date cannot be later or equal. -/
theorem Date.le_of_not_lt {a b : Date} (h : ¬ a < b) : b ≤ a := Nat.le_of_not_lt h

/-- A strict date inequality bounds the years. -/
theorem Date.year_le_of_lt {a b : Date} (h : a < b) : a.year ≤ b.year := by
  have h2 : a.key < b.key := h
  have h3 := a.month_le
  have h4 := a.day_le
  have h5 := b.month_le
  have h6 := b.day_le
  simp only [Date.key] at h2
  omega

/-- Adding one year moves a date strictly later. -/
theorem Date.lt_addYears (d : Date) : d < d.addYears 1 := by
  show d.key < (d.addYears 1).key
  have h1 := d.day_le
  simp only [Date.key, Date.addYears]
  omega

/-- Unfolding of the projection axis one step. -/
theorem dates_succ (d0 : Date) (t : Nat) : dates d0 (t + 1) = (dates d0 t).addYears 1 := rfl

/-- The `t`-th projection date lives in year `date_init.year + t`. -/
theorem dates_year (d0 : Date) : ∀ t, (dates d0 t).year = d0.year + t := by
  intro t
  induction t with
  | zero => rfl
  | succ n ih =>
    simp only [dates, Date.addPeriod, Date.addYears, ih]
    omega

/-- Consecutive projection dates are strictly increasing. -/
theorem dates_lt_succ (d0 : Date) (t : Nat) : dates d0 t < dates d0 (t + 1) := by
  rw [dates_succ]
  exact Date.lt_addYears _

/-- The projection axis is monotone. -/
theorem dates_le_dates (d0 : Date) {a b : Nat} (h : a ≤ b) : dates d0 a ≤ dates d0 b := by
  induction b, h using Nat.le_induction with
  | base => exact Nat.le_refl _
  | succ b _ ih => exact Nat.le_trans ih (Nat.le_of_lt (dates_lt_succ d0 b))

/-- The projection axis is strictly monotone. -/
theorem dates_lt_dates (d0 : Date) {a b : Nat} (h : a < b) : dates d0 a < dates d0 b :=
  Nat.lt_of_lt_of_le (dates_lt_succ d0 a) (dates_le_dates d0 h)

/-- One unfolding of the `t_length` while loop when the guard holds. -/
theorem tLengthFrom_step_true (d0 dEnd : Date) (t : Nat) (h : dates d0 t < dEnd) :
    tLengthFrom d0 dEnd t = tLengthFrom d0 dEnd (t + 1) := by
  rw [tLengthFrom]
  simp [h]

/-- One unfolding of the `t_length` while loop when the guard fails. -/
theorem tLengthFrom_step_false (d0 dEnd : Date) (t : Nat) (h : ¬ dates d0 t < dEnd) :
    tLengthFrom d0 dEnd t = t := by
  rw [tLengthFrom]
  simp [h]

/-- The loop exits at an index whose projection date has reached the end
date. -/
theorem tLengthFrom_ge (d0 dEnd : Date) :
    ∀ k t, dEnd.year + 1 - t ≤ k → dEnd ≤ dates d0 (tLengthFrom d0 dEnd t) := by
  intro k
  induction k with
  | zero =>
    intro t hb
    by_cases h : dates d0 t < dEnd
    · have hy := Date.year_le_of_lt h
      rw [dates_year] at hy
      omega
    · rw [tLengthFrom_step_false _ _ _ h]
      exact Nat.le_of_not_lt h
  | succ k ih =>
    intro t hb
    by_cases h : dates d0 t < dEnd
    · rw [tLengthFrom_step_true _ _ _ h]
      apply ih
      have hy := Date.year_le_of_lt h
      rw [dates_year] at hy
      omega
    · rw [tLengthFrom_step_false _ _ _ h]
      exact Nat.le_of_not_lt h

/-- Every index strictly below the loop's result has its projection date
strictly before the end date. -/
theorem tLengthFrom_min (d0 dEnd : Date) :
    ∀ k t, dEnd.year + 1 - t ≤ k →
      ∀ m, t ≤ m → m < tLengthFrom d0 dEnd t → dates d0 m < dEnd := by
  intro k
  induction k with
  | zero =>
    intro t hb m htm hm
    by_cases h : dates d0 t < dEnd
    · have hy := Date.year_le_of_lt h
      rw [dates_year] at hy
      omega
    · rw [tLengthFrom_step_false _ _ _ h] at hm
      omega
  | succ k ih =>
    intro t hb m htm hm
    by_cases h : dates d0 t < dEnd
    · rcases Nat.eq_or_lt_of_le htm with rfl | hlt
      · exact h
      · rw [tLengthFrom_step_true _ _ _ h] at hm
        refine ih (t + 1) ?_ m hlt hm
        have hy := Date.year_le_of_lt h
        rw [dates_year] at hy
        omega
    · rw [tLengthFrom_step_false _ _ _ h] at hm
      omega

/-- The loop never returns an index below its starting point. -/
theorem le_tLengthFrom (d0 dEnd : Date) :
    ∀ k t, dEnd.year + 1 - t ≤ k → t ≤ tLengthFrom d0 dEnd t := by
  intro k
  induction k with
  | zero =>
    intro t hb
    by_cases h : dates d0 t < dEnd
    · have hy := Date.year_le_of_lt h
      rw [dates_year] at hy
      omega
    · rw [tLengthFrom_step_false _ _ _ h]
  | succ k ih =>
    intro t hb
    by_cases h : dates d0 t < dEnd
    · rw [tLengthFrom_step_true _ _ _ h]
      refine Nat.le_trans (Nat.le_succ t) (ih (t + 1) ?_)
      have hy := Date.year_le_of_lt h
      rw [dates_year] at hy
      omega
    · rw [tLengthFrom_step_false _ _ _ h]

/-- The horizon's final projection date reaches the end date. -/
theorem t_length_ge (d0 dEnd : Date) : dEnd ≤ dates d0 (t_length d0 dEnd) :=
  tLengthFrom_ge d0 dEnd _ 0 (Nat.le_refl _)

/-- Every projection date strictly inside the horizon is before the end
date. -/
theorem t_length_min (d0 dEnd : Date) :
    ∀ m, m < t_length d0 dEnd → dates d0 m < dEnd :=
  fun m hm => tLengthFrom_min d0 dEnd _ 0 (Nat.le_refl _) m (Nat.zero_le m) hm

/-- With the end date strictly after the valuation date the horizon is
nonempty. -/
theorem t_length_pos (d0 dEnd : Date) (h : d0 < dEnd) : 1 ≤ t_length d0 dEnd := by
  unfold t_length
  rw [tLengthFrom_step_true d0 dEnd 0 h]
  exact le_tLengthFrom d0 dEnd (dEnd.year + 1 - 1) 1 (Nat.le_refl _)

/-- With the end date not after the valuation date the loop exits at once
with `0`. -/
theorem t_length_of_end_le (d0 dEnd : Date) (h : ¬ d0 < dEnd) : t_length d0 dEnd = 0 :=
  tLengthFrom_step_false d0 dEnd 0 h

/-- Concrete horizon used by the witnesses: valuation date 2022-01-01 and
end date 2025-01-01 give three periods. -/
theorem t_length_2022_2025 : t_length (mkDate 2022 1 1) (mkDate 2025 1 1) = 3 := by
  unfold t_length
  rw [tLengthFrom_step_true (mkDate 2022 1 1) (mkDate 2025 1 1) 0 (by decide),
    tLengthFrom_step_true (mkDate 2022 1 1) (mkDate 2025 1 1) 1 (by decide),
    tLengthFrom_step_true (mkDate 2022 1 1) (mkDate 2025 1 1) 2 (by decide),
    tLengthFrom_step_false (mkDate 2022 1 1) (mkDate 2025 1 1) 3 (by decide)]

/-- Sorted legs are pairwise ordered (transitivity of date order). -/
theorem eventsSorted_pairwise {l : List Event} (h : eventsSorted l) :
    List.Pairwise eventLE l :=
  List.chain'_iff_pairwise.mp h

/-- The empty leg contributes nothing to a bucket. -/
theorem specBucket_nil (lo hi : Date) : specBucket [] lo hi = 0 := rfl

/-- A leading event inside the period adds its amount to the bucket. -/
theorem specBucket_cons_pos {lo hi : Date} {e : Event} (l : List Event)
    (h : inBucket lo hi e = true) :
    specBucket (e :: l) lo hi = e.amount + specBucket l lo hi := by
  simp [specBucket, List.filter_cons, h]

/-- A leading event outside the period leaves the bucket unchanged. -/
theorem specBucket_cons_neg {lo hi : Date} {e : Event} (l : List Event)
    (h : inBucket lo hi e = false) :
    specBucket (e :: l) lo hi = specBucket l lo hi := by
  simp [specBucket, List.filter_cons, h]

/-- Buckets are additive over leg concatenation. -/
theorem specBucket_append (l1 l2 : List Event) (lo hi : Date) :
    specBucket (l1 ++ l2) lo hi = specBucket l1 lo hi + specBucket l2 lo hi := by
  simp [specBucket, List.filter_append]

/-- A leg entirely outside the period contributes nothing. -/
theorem specBucket_eq_zero {l : List Event} {lo hi : Date}
    (h : ∀ e ∈ l, inBucket lo hi e = false) : specBucket l lo hi = 0 := by
  induction l with
  | nil => rfl
  | cons e tl ih =>
    rw [specBucket_cons_neg tl (h e (by simp))]
    exact ih fun x hx => h x (by simp [hx])

/-- In a sorted leg, everything the `takeWhile` cut leaves behind is dated
at or after the cut date. -/
theorem mem_dropWhile_ge (hi : Date) :
    ∀ (l : List Event), List.Pairwise eventLE l →
      ∀ e ∈ l.dropWhile (fun e => decide (e.date < hi)), hi ≤ e.date := by
  intro l
  induction l with
  | nil => simp
  | cons a tl ih =>
    intro hp e he
    by_cases hpa : a.date < hi
    · rw [List.dropWhile_cons_of_pos (by simpa using hpa)] at he
      exact ih (List.pairwise_cons.mp hp).2 e he
    · rw [List.dropWhile_cons_of_neg (by simpa using hpa)] at he
      rcases List.mem_cons.mp he with rfl | he2
      · exact Nat.le_of_not_lt hpa
      · exact Nat.le_trans (Nat.le_of_not_lt hpa) ((List.pairwise_cons.mp hp).1 e he2)

/-- Everything the `takeWhile` cut keeps is dated before the cut date. -/
theorem mem_takeWhile_lt (hi : Date) (l : List Event) :
    ∀ e ∈ l.takeWhile (fun e => decide (e.date < hi)), e.date < hi := by
  intro e he
  simpa using List.mem_takeWhile_imp he

/-- One inner-loop pass over a sorted cursor: the scan never trips the
order check, accumulates exactly the kept-prefix events lying in
`[lo, hi)`, and leaves the cursor at the first event dated `≥ hi`. -/
theorem scanBucket_chain (c : Bool) (lo hi : Date) :
    ∀ (rest : List Event) (prev : Option Event) (acc : ℚ),
      List.Pairwise eventLE (prev.toList ++ rest) →
      ∃ prev2,
        scanBucket c lo hi prev rest acc
          = some (acc + specBucket (rest.takeWhile fun e => decide (e.date < hi)) lo hi,
              prev2, rest.dropWhile fun e => decide (e.date < hi))
        ∧ List.Pairwise eventLE
            (prev2.toList ++ rest.dropWhile fun e => decide (e.date < hi)) := by
  intro rest
  induction rest with
  | nil =>
    intro prev acc h
    exact ⟨prev, by simp [scanBucket, specBucket], by simpa using h⟩
  | cons e tl ih =>
    intro prev acc h
    have htail : List.Pairwise eventLE (e :: tl) :=
      h.sublist (List.sublist_append_right _ _)
    have hbad : orderBad c prev e = false := by
      cases prev with
      | none => simp [orderBad]
      | some p =>
        have hpe : p.date ≤ e.date := (List.pairwise_cons.mp h).1 e (by simp)
        simp [orderBad, hpe]
    by_cases hin : lo ≤ e.date ∧ e.date < hi
    · have htw : (e :: tl).takeWhile (fun e : Event => decide (e.date < hi))
          = e :: tl.takeWhile (fun e : Event => decide (e.date < hi)) := by
        simp [List.takeWhile_cons, hin.2]
      have hdw : (e :: tl).dropWhile (fun e : Event => decide (e.date < hi))
          = tl.dropWhile (fun e : Event => decide (e.date < hi)) := by
        simp [List.dropWhile_cons, hin.2]
      obtain ⟨prev2, heq, hp2⟩ := ih (some e) (acc + e.amount) htail
      have hstep : scanBucket c lo hi prev (e :: tl) acc
          = scanBucket c lo hi (some e) tl (acc + e.amount) := by
        simp [scanBucket, hbad, hin]
      refine ⟨prev2, ?_, ?_⟩
      · rw [htw, hdw, hstep, heq,
          specBucket_cons_pos _ (by simp [inBucket, hin.1, hin.2]), ← add_assoc]
      · rw [hdw]
        exact hp2
    · by_cases hge : hi ≤ e.date
      · have hnlt : ¬ e.date < hi := fun hh => absurd hge (Nat.not_le_of_lt hh)
        have htw : (e :: tl).takeWhile (fun e : Event => decide (e.date < hi)) = [] := by
          simp [List.takeWhile_cons, hnlt]
        have hdw : (e :: tl).dropWhile (fun e : Event => decide (e.date < hi))
            = e :: tl := by
          simp [List.dropWhile_cons, hnlt]
        have hstep : scanBucket c lo hi prev (e :: tl) acc = some (acc, prev, e :: tl) := by
          simp [scanBucket, hbad, hin, hge]
        refine ⟨prev, ?_, ?_⟩
        · rw [htw, hdw, hstep, specBucket_nil, add_zero]
        · rw [hdw]
          exact h
      · have hdlt : e.date < hi := Nat.lt_of_not_le hge
        have hnlo : ¬ lo ≤ e.date := fun hlo => hin ⟨hlo, hdlt⟩
        have htw : (e :: tl).takeWhile (fun e : Event => decide (e.date < hi))
            = e :: tl.takeWhile (fun e : Event => decide (e.date < hi)) := by
          simp [List.takeWhile_cons, hdlt]
        have hdw : (e :: tl).dropWhile (fun e : Event => decide (e.date < hi))
            = tl.dropWhile (fun e : Event => decide (e.date < hi)) := by
          simp [List.dropWhile_cons, hdlt]
        obtain ⟨prev2, heq, hp2⟩ := ih (some e) acc htail
        have hstep : scanBucket c lo hi prev (e :: tl) acc
            = scanBucket c lo hi (some e) tl acc := by
          simp [scanBucket, hbad, hin, hge]
        refine ⟨prev2, ?_, ?_⟩
        · rw [htw, hdw, hstep, heq, specBucket_cons_neg _ (by simp [inBucket, hnlo])]
        · rw [hdw]
          exact hp2

/-- The outer loop over buckets, on a sorted cursor, produces exactly the
per-period half-open bucket sums of the current remainder. -/
theorem bucketsFrom_chain (c : Bool) (d0 : Date) :
    ∀ (n t : Nat) (prev : Option Event) (rest : List Event),
      List.Pairwise eventLE (prev.toList ++ rest) →
      bucketsFrom c (dates d0) t n prev rest
        = some ((List.range n).map fun k =>
            specBucket rest (dates d0 (t + k)) (dates d0 (t + k + 1))) := by
  intro n
  induction n with
  | zero =>
    intro t prev rest _
    simp [bucketsFrom]
  | succ n ih =>
    intro t prev rest h
    have hrest : List.Pairwise eventLE rest :=
      h.sublist (List.sublist_append_right _ _)
    obtain ⟨prev2, heq, hp2⟩ :=
      scanBucket_chain c (dates d0 t) (dates d0 (t + 1)) rest prev 0 h
    have hdrop : List.Pairwise eventLE
        (rest.dropWhile fun e => decide (e.date < dates d0 (t + 1))) :=
      hp2.sublist (List.sublist_append_right _ _)
    have hsplit : (rest.takeWhile fun e => decide (e.date < dates d0 (t + 1)))
        ++ (rest.dropWhile fun e => decide (e.date < dates d0 (t + 1))) = rest :=
      List.takeWhile_append_dropWhile _ _
    simp only [bucketsFrom]
    rw [heq]
    dsimp only
    rw [ih (t + 1) prev2 (rest.dropWhile fun e => decide (e.date < dates d0 (t + 1))) hp2]
    have hhead : specBucket (rest.takeWhile fun e => decide (e.date < dates d0 (t + 1)))
        (dates d0 t) (dates d0 (t + 1)) = specBucket rest (dates d0 t) (dates d0 (t + 1)) := by
      conv_rhs => rw [← hsplit]
      rw [specBucket_append]
      have hz : specBucket (rest.dropWhile fun e => decide (e.date < dates d0 (t + 1)))
          (dates d0 t) (dates d0 (t + 1)) = 0 := by
        refine specBucket_eq_zero fun e he => ?_
        have hge := mem_dropWhile_ge (dates d0 (t + 1)) rest hrest e he
        have hnlt : ¬ e.date < dates d0 (t + 1) := fun hh => absurd hge (Nat.not_le_of_lt hh)
        simp [inBucket, hnlt]
      rw [hz, add_zero]
    have htail : ∀ k ∈ List.range n,
        specBucket (rest.dropWhile fun e => decide (e.date < dates d0 (t + 1)))
          (dates d0 (t + 1 + k)) (dates d0 (t + 1 + k + 1))
        = specBucket rest (dates d0 (t + 1 + k)) (dates d0 (t + 1 + k + 1)) := by
      intro k _
      conv_rhs => rw [← hsplit]
      rw [specBucket_append]
      have hz : specBucket (rest.takeWhile fun e => decide (e.date < dates d0 (t + 1)))
          (dates d0 (t + 1 + k)) (dates d0 (t + 1 + k + 1)) = 0 := by
        refine specBucket_eq_zero fun e he => ?_
        have hlt := mem_takeWhile_lt (dates d0 (t + 1)) rest e he
        have hmono : dates d0 (t + 1) ≤ dates d0 (t + 1 + k) :=
          dates_le_dates d0 (Nat.le_add_right _ _)
        have hnlo : ¬ dates d0 (t + 1 + k) ≤ e.date :=
          fun hh => absurd (Nat.le_trans hmono hh) (Nat.not_le_of_lt hlt)
        simp [inBucket, hnlo]
      rw [hz, zero_add]
    rw [List.range_succ_eq_map, List.map_cons, List.map_map]
    refine congrArg some ?_
    refine List.cons_eq_cons.mpr ⟨?_, ?_⟩
    · simp only [zero_add, Nat.add_zero]
      exact hhead
    · refine List.map_congr_left fun k hk => ?_
      have h1 := htail k hk
      simp only [Function.comp, Nat.succ_eq_add_one]
      have e1 : t + 1 + k = t + (k + 1) := by omega
      rw [e1] at h1 ⊢
      exact h1

/-- On a sorted leg the `cashflows` cell never trips its assert and equals
the spec's bucket array. -/
theorem cashflows_eq_spec (d0 dEnd : Date) (leg : List Event) (h : eventsSorted leg) :
    cashflows d0 dEnd leg = some (specBuckets leg d0 dEnd) := by
  unfold cashflows
  rw [bucketsFrom_chain true d0 (t_length d0 dEnd) 0 none leg
    (by simpa using eventsSorted_pairwise h)]
  unfold specBuckets
  simp only [Nat.zero_add]

/-- On a sorted leg the `redemptions` cell equals the spec's bucket
array. -/
theorem redemptions_eq_spec (d0 dEnd : Date) (leg : List Event) (h : eventsSorted leg) :
    redemptions d0 dEnd leg = some (specBuckets leg d0 dEnd) := by
  unfold redemptions
  rw [bucketsFrom_chain false d0 (t_length d0 dEnd) 0 none leg
    (by simpa using eventsSorted_pairwise h)]
  unfold specBuckets
  simp only [Nat.zero_add]

/-- The spec's bucket array has exactly `horizon_length` entries. -/
theorem specBuckets_length (leg : List Event) (d0 dEnd : Date) :
    (specBuckets leg d0 dEnd).length = t_length d0 dEnd := by
  simp [specBuckets]

/-- Without the order check the inner scan can never fail. -/
theorem scanBucket_nofail (lo hi : Date) :
    ∀ (rest : List Event) (prev : Option Event) (acc : ℚ),
      ∃ out, scanBucket false lo hi prev rest acc = some out := by
  intro rest
  induction rest with
  | nil => intro prev acc; exact ⟨_, rfl⟩
  | cons e tl ih =>
    intro prev acc
    by_cases hin : lo ≤ e.date ∧ e.date < hi
    · obtain ⟨out, hout⟩ := ih (some e) (acc + e.amount)
      exact ⟨out, by simp [scanBucket, orderBad, hin, hout]⟩
    · by_cases hge : hi ≤ e.date
      · exact ⟨(acc, prev, e :: tl), by simp [scanBucket, orderBad, hin, hge]⟩
      · obtain ⟨out, hout⟩ := ih (some e) acc
        exact ⟨out, by simp [scanBucket, orderBad, hin, hge, hout]⟩

/-- Without the order check the bucket loop always returns an array of the
requested length, whatever the event stream. -/
theorem bucketsFrom_nofail (axis : Nat → Date) :
    ∀ (n t : Nat) (prev : Option Event) (rest : List Event),
      ∃ l, bucketsFrom false axis t n prev rest = some l ∧ l.length = n := by
  intro n
  induction n with
  | zero => intro t prev rest; exact ⟨[], rfl, rfl⟩
  | succ n ih =>
    intro t prev rest
    obtain ⟨⟨b, prev2, rest2⟩, hs⟩ := scanBucket_nofail (axis t) (axis (t + 1)) rest prev 0
    obtain ⟨l, hl, hlen⟩ := ih (t + 1) prev2 rest2
    refine ⟨b :: l, ?_, by simp [hlen]⟩
    simp only [bucketsFrom]
    rw [hs]
    dsimp only
    rw [hl]

/-- A degenerate period contributes nothing. -/
theorem specBucket_self (lo : Date) (l : List Event) : specBucket l lo lo = 0 := by
  refine specBucket_eq_zero fun e _ => ?_
  by_cases h : lo ≤ e.date
  · have hnl : ¬ e.date < lo := Nat.not_lt.mpr h
    simp [inBucket, hnl]
  · simp [inBucket, h]

/-- Splitting a period at an interior date splits its bucket sum. -/
theorem specBucket_interval_add (lo mid hi : Date) (hlm : lo ≤ mid) (hmh : mid ≤ hi) :
    ∀ l : List Event, specBucket l lo mid + specBucket l mid hi = specBucket l lo hi := by
  intro l
  induction l with
  | nil => simp [specBucket]
  | cons e tl ih =>
    by_cases h1 : lo ≤ e.date
    · by_cases h2 : e.date < mid
      · have hmle : ¬ mid ≤ e.date := Nat.not_le_of_lt h2
        have hhi : e.date < hi := Nat.lt_of_lt_of_le h2 hmh
        rw [specBucket_cons_pos _ (by simp [inBucket, h1, h2]),
          specBucket_cons_neg _ (by simp [inBucket, hmle]),
          specBucket_cons_pos _ (by simp [inBucket, h1, hhi]), ← ih]
        ring
      · by_cases h3 : e.date < hi
        · have hmid : mid ≤ e.date := Nat.le_of_not_lt h2
          rw [specBucket_cons_neg _ (by simp [inBucket, h2]),
            specBucket_cons_pos _ (by simp [inBucket, hmid, h3]),
            specBucket_cons_pos _ (by simp [inBucket, h1, h3]), ← ih]
          ring
        · have h2' : ¬ e.date < mid := h2
          rw [specBucket_cons_neg _ (by simp [inBucket, h2']),
            specBucket_cons_neg _ (by simp [inBucket, h3]),
            specBucket_cons_neg _ (by simp [inBucket, h3])]
          exact ih
    · have hm2 : ¬ mid ≤ e.date := fun hm => h1 (Nat.le_trans hlm hm)
      rw [specBucket_cons_neg _ (by simp [inBucket, h1]),
        specBucket_cons_neg _ (by simp [inBucket, hm2]),
        specBucket_cons_neg _ (by simp [inBucket, h1])]
      exact ih

/-- Summing consecutive per-period buckets gives the bucket of the merged
period. -/
theorem specBucket_sum_range (leg : List Event) (d0 : Date) :
    ∀ (n a : Nat),
      ((List.range n).map fun k =>
        specBucket leg (dates d0 (a + k)) (dates d0 (a + k + 1))).sum
      = specBucket leg (dates d0 a) (dates d0 (a + n)) := by
  intro n
  induction n with
  | zero =>
    intro a
    simp [specBucket_self]
  | succ n ih =>
    intro a
    rw [List.range_succ_eq_map, List.map_cons, List.map_map, List.sum_cons]
    have htail : ((List.range n).map
        ((fun k => specBucket leg (dates d0 (a + k)) (dates d0 (a + k + 1))) ∘ Nat.succ)).sum
        = specBucket leg (dates d0 (a + 1)) (dates d0 (a + 1 + n)) := by
      rw [← ih (a + 1)]
      refine congrArg List.sum (List.map_congr_left fun k _ => ?_)
      simp only [Function.comp, Nat.succ_eq_add_one]
      have e1 : a + (k + 1) = a + 1 + k := by omega
      rw [e1]
    rw [htail, Nat.add_zero]
    have e2 : a + (n + 1) = a + 1 + n := by omega
    rw [e2]
    exact specBucket_interval_add _ _ _ (Nat.le_of_lt (dates_lt_succ d0 a))
      (dates_le_dates d0 (Nat.le_add_right _ _)) leg

/-- The total of the spec's bucket array is the bucket sum over the whole
horizon `[axis 0, axis N)`. -/
theorem specBuckets_sum (leg : List Event) (d0 dEnd : Date) :
    (specBuckets leg d0 dEnd).sum
      = specBucket leg (dates d0 0) (dates d0 (t_length d0 dEnd)) := by
  unfold specBuckets
  have h := specBucket_sum_range leg d0 (t_length d0 dEnd) 0
  simpa using h

/-- The per-period inner fold of the total cells, when every per-bond cell
succeeds, adds up the per-bond values at this period index. -/
theorem foldlM_sum (f : Bond → Option (List ℚ)) (g : Bond → List ℚ) (t : Nat) :
    ∀ (bonds : List Bond), (∀ b ∈ bonds, f b = some (g b)) → ∀ acc : ℚ,
      bonds.foldlM (fun acc b => (f b).map fun v => acc + v.getD t 0) acc
        = some (acc + (bonds.map fun b => (g b).getD t 0).sum) := by
  intro bonds
  induction bonds with
  | nil => intro _ acc; simp
  | cons b tl ih =>
    intro h acc
    rw [List.foldlM_cons, h b (by simp)]
    simp only [Option.map_some', Option.bind_eq_bind, Option.some_bind]
    rw [ih (fun x hx => h x (by simp [hx])) (acc + (g b).getD t 0)]
    rw [List.map_cons, List.sum_cons, add_assoc]

/-- Mapping a succeeding `Option`-valued function over a list succeeds with
the pointwise values. -/
theorem mapM_eq_map {α : Type} (F : α → Option ℚ) (G : α → ℚ) :
    ∀ (l : List α), (∀ x ∈ l, F x = some (G x)) → l.mapM F = some (l.map G) := by
  intro l
  induction l with
  | nil => intro _; rfl
  | cons x tl ih =>
    intro h
    rw [List.mapM_cons, h x (by simp), ih (fun y hy => h y (by simp [hy]))]
    rfl

/-- Indexing the array built over `List.range` evaluates the generating
function. -/
theorem getD_map_range (h : Nat → ℚ) (N t : Nat) (ht : t < N) :
    ((List.range N).map h).getD t 0 = h t := by
  rw [List.getD_eq_getElem?_getD, List.getElem?_map, List.getElem?_range ht]
  rfl

/-- With all cashflow legs sorted, `cashflows_total` succeeds and its entry
at each period is the portfolio sum of the per-bond spec buckets. -/
theorem cashflows_total_eq (d0 dEnd : Date) (bonds : List Bond)
    (hc : ∀ b ∈ bonds, eventsSorted b.cashflowLeg) :
    cashflows_total d0 dEnd bonds
      = some ((List.range (t_length d0 dEnd)).map fun t =>
          (bonds.map fun b => (specBuckets b.cashflowLeg d0 dEnd).getD t 0).sum) := by
  unfold cashflows_total
  refine mapM_eq_map _ _ _ fun t _ => ?_
  rw [foldlM_sum (fun b => cashflows d0 dEnd b.cashflowLeg)
    (fun b => specBuckets b.cashflowLeg d0 dEnd) t bonds
    (fun b hb => cashflows_eq_spec d0 dEnd _ (hc b hb)) 0]
  rw [zero_add]

/-- With all redemption legs sorted, `redemptions_total` succeeds and its
entry at each period is the portfolio sum of the per-bond spec buckets. -/
theorem redemptions_total_eq (d0 dEnd : Date) (bonds : List Bond)
    (hr : ∀ b ∈ bonds, eventsSorted b.redemptionLeg) :
    redemptions_total d0 dEnd bonds
      = some ((List.range (t_length d0 dEnd)).map fun t =>
          (bonds.map fun b => (specBuckets b.redemptionLeg d0 dEnd).getD t 0).sum) := by
  unfold redemptions_total
  refine mapM_eq_map _ _ _ fun t _ => ?_
  rw [foldlM_sum (fun b => redemptions d0 dEnd b.redemptionLeg)
    (fun b => specBuckets b.redemptionLeg d0 dEnd) t bonds
    (fun b hb => redemptions_eq_spec d0 dEnd _ (hr b hb)) 0]
  rw [zero_add]

/-- C1: For every bond id (modelled by its date-sorted QuantLib event
leg), the bucketed cashflow and the bucketed redemption series are arrays
of length `horizon_length()` in which bucket `t` is the sum of the amounts
of exactly those events with `axis(t) ≤ date < axis(t+1)`; the half-open
periods put an event dated exactly on a boundary into the bucket that
starts there. -/
theorem bucket_series_matches_spec (d0 dEnd : Date) (leg : List Event)
    (h : eventsSorted leg) :
    cashflows d0 dEnd leg = some (specBuckets leg d0 dEnd)
    ∧ redemptions d0 dEnd leg = some (specBuckets leg d0 dEnd)
    ∧ (specBuckets leg d0 dEnd).length = t_length d0 dEnd :=
  ⟨cashflows_eq_spec d0 dEnd leg h, redemptions_eq_spec d0 dEnd leg h,
    specBuckets_length leg d0 dEnd⟩

/-- Witness for C1 at the spec's boundary example: an event dated exactly
2023-01-01 on the 2022..2025 axis lands in bucket index 1, not bucket 0. -/
theorem bucket_series_matches_spec_witness :
    eventsSorted [⟨mkDate 2023 1 1, 10⟩]
    ∧ cashflows (mkDate 2022 1 1) (mkDate 2025 1 1) [⟨mkDate 2023 1 1, 10⟩]
        = some (specBuckets [⟨mkDate 2023 1 1, 10⟩] (mkDate 2022 1 1) (mkDate 2025 1 1))
    ∧ specBuckets [⟨mkDate 2023 1 1, 10⟩] (mkDate 2022 1 1) (mkDate 2025 1 1)
        = [0, 10, 0] := by
  refine ⟨by decide, (bucket_series_matches_spec (mkDate 2022 1 1) (mkDate 2025 1 1)
    [⟨mkDate 2023 1 1, 10⟩] (by decide)).1, ?_⟩
  unfold specBuckets
  rw [t_length_2022_2025]
  simp +decide [specBucket, inBucket, List.range_succ]

/-- C2: with `end_date > valuation_date`, `t_length` returns the unique `N`
with `axis(N) ≥ end_date` and `axis(N-1) < end_date`. -/
theorem t_length_characterization (d0 dEnd : Date) (h : d0 < dEnd) :
    dEnd ≤ dates d0 (t_length d0 dEnd)
    ∧ dates d0 (t_length d0 dEnd - 1) < dEnd
    ∧ ∀ M, dEnd ≤ dates d0 M → dates d0 (M - 1) < dEnd → M = t_length d0 dEnd := by
  have hge := t_length_ge d0 dEnd
  have hmin := t_length_min d0 dEnd
  have hpos := t_length_pos d0 dEnd h
  refine ⟨hge, hmin _ (by omega), ?_⟩
  intro M hM1 hM2
  rcases Nat.lt_trichotomy M (t_length d0 dEnd) with hlt | heq | hgt
  · exact absurd hM1 (Nat.not_le_of_lt (hmin M hlt))
  · exact heq
  · have hle : t_length d0 dEnd ≤ M - 1 := by omega
    exact absurd hM2 (Nat.not_lt.mpr (Nat.le_trans hge (dates_le_dates d0 hle)))

/-- Witness for C2 at the spec's example: valuation date 2022-01-01 and
horizon end 2025-01-01 give `horizon_length = 3`, with `axis(3) ≥ end` and
`axis(2) < end`. -/
theorem t_length_characterization_witness :
    mkDate 2022 1 1 < mkDate 2025 1 1
    ∧ t_length (mkDate 2022 1 1) (mkDate 2025 1 1) = 3
    ∧ mkDate 2025 1 1 ≤ dates (mkDate 2022 1 1) 3
    ∧ dates (mkDate 2022 1 1) 2 < mkDate 2025 1 1 := by
  have h0 : mkDate 2022 1 1 < mkDate 2025 1 1 := by decide
  have hthm := t_length_characterization (mkDate 2022 1 1) (mkDate 2025 1 1) h0
  rw [t_length_2022_2025] at hthm
  exact ⟨h0, t_length_2022_2025, hthm.1, hthm.2.1⟩

/-- C3: for a date-sorted leg, the bucketed series sums to the sum of the
amounts of exactly the events dated in `[axis(0), axis(N))`; events at or
beyond `axis(N)` are dropped from the total, and no error is raised. -/
theorem cashflows_sum_horizon (d0 dEnd : Date) (leg : List Event)
    (h : eventsSorted leg) :
    cashflows d0 dEnd leg = some (specBuckets leg d0 dEnd)
    ∧ (specBuckets leg d0 dEnd).sum
        = specBucket leg (dates d0 0) (dates d0 (t_length d0 dEnd)) :=
  ⟨cashflows_eq_spec d0 dEnd leg h, specBuckets_sum leg d0 dEnd⟩

/-- Witness for C3: a leg with an in-horizon event of amount 10 and an
out-of-horizon event of amount 99 totals 10 — the 2030 event is silently
dropped. -/
theorem cashflows_sum_horizon_witness :
    eventsSorted [⟨mkDate 2022 6 1, 10⟩, ⟨mkDate 2030 1 1, 99⟩]
    ∧ (specBuckets [⟨mkDate 2022 6 1, 10⟩, ⟨mkDate 2030 1 1, 99⟩]
        (mkDate 2022 1 1) (mkDate 2025 1 1)).sum
      = specBucket [⟨mkDate 2022 6 1, 10⟩, ⟨mkDate 2030 1 1, 99⟩]
          (dates (mkDate 2022 1 1) 0)
          (dates (mkDate 2022 1 1) (t_length (mkDate 2022 1 1) (mkDate 2025 1 1)))
    ∧ specBucket [⟨mkDate 2022 6 1, 10⟩, ⟨mkDate 2030 1 1, 99⟩]
        (dates (mkDate 2022 1 1) 0)
        (dates (mkDate 2022 1 1) (t_length (mkDate 2022 1 1) (mkDate 2025 1 1))) = 10 := by
  refine ⟨by decide, (cashflows_sum_horizon (mkDate 2022 1 1) (mkDate 2025 1 1)
    [⟨mkDate 2022 6 1, 10⟩, ⟨mkDate 2030 1 1, 99⟩] (by decide)).2, ?_⟩
  rw [t_length_2022_2025]
  simp +decide [specBucket, inBucket]

/-- C4: for every period index, `cashflows_total` is the sum over bonds of
that bond's bucketed cashflow at that index, and `redemptions_total` the
sum of the bucketed redemptions. -/
theorem totals_elementwise (d0 dEnd : Date) (bonds : List Bond)
    (hc : ∀ b ∈ bonds, eventsSorted b.cashflowLeg)
    (hr : ∀ b ∈ bonds, eventsSorted b.redemptionLeg) :
    ∃ LC LR, cashflows_total d0 dEnd bonds = some LC
      ∧ redemptions_total d0 dEnd bonds = some LR
      ∧ ∀ t, t < t_length d0 dEnd →
          LC.getD t 0 = (bonds.map fun b =>
              ((cashflows d0 dEnd b.cashflowLeg).getD []).getD t 0).sum
          ∧ LR.getD t 0 = (bonds.map fun b =>
              ((redemptions d0 dEnd b.redemptionLeg).getD []).getD t 0).sum := by
  refine ⟨_, _, cashflows_total_eq d0 dEnd bonds hc,
    redemptions_total_eq d0 dEnd bonds hr, ?_⟩
  intro t ht
  constructor
  · rw [getD_map_range _ _ _ ht]
    refine congrArg List.sum (List.map_congr_left fun b hb => ?_)
    rw [cashflows_eq_spec d0 dEnd _ (hc b hb)]
    rfl
  · rw [getD_map_range _ _ _ ht]
    refine congrArg List.sum (List.map_congr_left fun b hb => ?_)
    rw [redemptions_eq_spec d0 dEnd _ (hr b hb)]
    rfl

/-- Witness for C4 on a two-bond portfolio with sorted legs. -/
theorem totals_elementwise_witness :
    (∀ b ∈ [(⟨0, 100, mkDate 2020 1 1, mkDate 2030 1 1, "1Y", 5, 3,
        [⟨mkDate 2022 6 1, 5⟩], [⟨mkDate 2023 6 1, 100⟩], 100, 99⟩ : Bond),
      (⟨0, 200, mkDate 2021 1 1, mkDate 2031 1 1, "6M", 7, 2,
        [⟨mkDate 2022 7 1, 7⟩], [], 200, 101⟩ : Bond)],
      eventsSorted b.cashflowLeg)
    ∧ (∀ b ∈ [(⟨0, 100, mkDate 2020 1 1, mkDate 2030 1 1, "1Y", 5, 3,
        [⟨mkDate 2022 6 1, 5⟩], [⟨mkDate 2023 6 1, 100⟩], 100, 99⟩ : Bond),
      (⟨0, 200, mkDate 2021 1 1, mkDate 2031 1 1, "6M", 7, 2,
        [⟨mkDate 2022 7 1, 7⟩], [], 200, 101⟩ : Bond)],
      eventsSorted b.redemptionLeg)
    ∧ ∃ LC LR, cashflows_total (mkDate 2022 1 1) (mkDate 2025 1 1)
        [⟨0, 100, mkDate 2020 1 1, mkDate 2030 1 1, "1Y", 5, 3,
          [⟨mkDate 2022 6 1, 5⟩], [⟨mkDate 2023 6 1, 100⟩], 100, 99⟩,
         ⟨0, 200, mkDate 2021 1 1, mkDate 2031 1 1, "6M", 7, 2,
          [⟨mkDate 2022 7 1, 7⟩], [], 200, 101⟩] = some LC
      ∧ redemptions_total (mkDate 2022 1 1) (mkDate 2025 1 1)
        [⟨0, 100, mkDate 2020 1 1, mkDate 2030 1 1, "1Y", 5, 3,
          [⟨mkDate 2022 6 1, 5⟩], [⟨mkDate 2023 6 1, 100⟩], 100, 99⟩,
         ⟨0, 200, mkDate 2021 1 1, mkDate 2031 1 1, "6M", 7, 2,
          [⟨mkDate 2022 7 1, 7⟩], [], 200, 101⟩] = some LR
      ∧ ∀ t, t < t_length (mkDate 2022 1 1) (mkDate 2025 1 1) →
          LC.getD t 0 = ([(⟨0, 100, mkDate 2020 1 1, mkDate 2030 1 1, "1Y", 5, 3,
              [⟨mkDate 2022 6 1, 5⟩], [⟨mkDate 2023 6 1, 100⟩], 100, 99⟩ : Bond),
            ⟨0, 200, mkDate 2021 1 1, mkDate 2031 1 1, "6M", 7, 2,
              [⟨mkDate 2022 7 1, 7⟩], [], 200, 101⟩].map fun b =>
              ((cashflows (mkDate 2022 1 1) (mkDate 2025 1 1) b.cashflowLeg).getD []).getD t 0).sum
          ∧ LR.getD t 0 = ([(⟨0, 100, mkDate 2020 1 1, mkDate 2030 1 1, "1Y", 5, 3,
              [⟨mkDate 2022 6 1, 5⟩], [⟨mkDate 2023 6 1, 100⟩], 100, 99⟩ : Bond),
            ⟨0, 200, mkDate 2021 1 1, mkDate 2031 1 1, "6M", 7, 2,
              [⟨mkDate 2022 7 1, 7⟩], [], 200, 101⟩].map fun b =>
              ((redemptions (mkDate 2022 1 1) (mkDate 2025 1 1) b.redemptionLeg).getD []).getD t 0).sum :=
  ⟨by decide, by decide,
    totals_elementwise (mkDate 2022 1 1) (mkDate 2025 1 1) _ (by decide) (by decide)⟩

/-- Counterexample for C5: with the end date strictly before the valuation
date, `t_length` neither raises nor loops — it returns the normal value 0. -/
theorem t_length_end_before_start_cex :
    mkDate 2021 1 1 < mkDate 2022 1 1
    ∧ t_length (mkDate 2022 1 1) (mkDate 2021 1 1) = 0 :=
  ⟨by decide, t_length_of_end_le (mkDate 2022 1 1) (mkDate 2021 1 1) (by decide)⟩

/-- C5 as amended: when the configured end date is strictly before the
valuation date, `t_length` terminates immediately and returns `0` — no
error is raised and no looping occurs. -/
theorem t_length_end_before_start_zero (d0 dEnd : Date) (h : dEnd < d0) :
    t_length d0 dEnd = 0 :=
  t_length_of_end_le d0 dEnd fun hlt => absurd (Nat.lt_trans h hlt) (Nat.lt_irrefl _)

/-- Witness for the amended C5. -/
theorem t_length_end_before_start_zero_witness :
    mkDate 2020 2 2 < mkDate 2022 1 1
    ∧ t_length (mkDate 2022 1 1) (mkDate 2020 2 2) = 0 :=
  ⟨by decide, t_length_end_before_start_zero (mkDate 2022 1 1) (mkDate 2020 2 2) (by decide)⟩

/-- Counterexample for C6: on a leg whose two consecutive events have
strictly decreasing dates, `redemptions` raises nothing and silently
returns a bucket array (the 2022-06-01 amount is even dropped, because the
cursor has already advanced past bucket 0). -/
theorem redemptions_unsorted_cex :
    ¬ eventsSorted [⟨mkDate 2023 6 1, 50⟩, ⟨mkDate 2022 6 1, 50⟩]
    ∧ redemptions (mkDate 2022 1 1) (mkDate 2025 1 1)
        [⟨mkDate 2023 6 1, 50⟩, ⟨mkDate 2022 6 1, 50⟩] = some [0, 50, 0] := by
  refine ⟨by decide, ?_⟩
  unfold redemptions
  rw [t_length_2022_2025]
  simp +decide [bucketsFrom, scanBucket, orderBad]

/-- C6 as amended: only `cashflows` carries the order assert — on the
out-of-order pair above it aborts (modelled by `none`) once its scan
examines the second event of the pair — while `redemptions` performs no
order check at all and always returns a bucket array of horizon length. -/
theorem order_check_cashflows_only :
    cashflows (mkDate 2022 1 1) (mkDate 2025 1 1)
        [⟨mkDate 2023 6 1, 50⟩, ⟨mkDate 2022 6 1, 50⟩] = none
    ∧ ∀ (d0 dEnd : Date) (leg : List Event),
        ∃ l, redemptions d0 dEnd leg = some l ∧ l.length = t_length d0 dEnd := by
  constructor
  · unfold cashflows
    rw [t_length_2022_2025]
    simp +decide [bucketsFrom, scanBucket, orderBad]
  · intro d0 dEnd leg
    obtain ⟨l, h1, h2⟩ := bucketsFrom_nofail (dates d0) (t_length d0 dEnd) 0 none leg
    exact ⟨l, h1, h2⟩

/-- C7: the payment schedule is semiannual exactly when the bond's tenor
label is the string `6Y`, and annual for every other label. -/
theorem schedule_semiannual_iff_6Y (b : Bond) :
    ((schedule b).tenor = Frequency.Semiannual ↔ b.tenor = "6Y")
    ∧ (b.tenor ≠ "6Y" → (schedule b).tenor = Frequency.Annual) := by
  unfold schedule
  by_cases h : b.tenor = "6Y" <;> simp [h]

/-- Witness for C7: a bond labelled `6M` gets an annual schedule. -/
theorem schedule_semiannual_iff_6Y_witness :
    ("6M" : String) ≠ "6Y"
    ∧ (schedule (⟨0, 100, mkDate 2020 1 1, mkDate 2026 1 1, "6M", 5, 2,
        [], [], 100, 100⟩ : Bond)).tenor = Frequency.Annual :=
  ⟨by decide, (schedule_semiannual_iff_6Y
    ⟨0, 100, mkDate 2020 1 1, mkDate 2026 1 1, "6M", 5, 2, [], [], 100, 100⟩).2 (by decide)⟩

/-- Counterexample for C8: `riskfree_curve` does not restore the prior
evaluation date — after a call with prior evaluation date 2020-05-05 the
global evaluation date is no longer 2020-05-05. -/
theorem riskfree_curve_evaluation_date_cex :
    (riskfree_curve (mkDate 2022 1 1) [] ⟨mkDate 2020 5 5⟩).2.evaluationDate
        = mkDate 2022 1 1
    ∧ (⟨mkDate 2020 5 5⟩ : Settings).evaluationDate = mkDate 2020 5 5
    ∧ mkDate 2022 1 1 ≠ mkDate 2020 5 5 := by
  refine ⟨rfl, rfl, by decide⟩

/-- C8 as amended: `riskfree_curve` sets the library's global evaluation
date to the valuation date `dates 0` and leaves it set after the call;
whenever the prior value differed, the prior value is not restored. -/
theorem riskfree_curve_evaluation_date_set (d0 : Date) (zc : List (Period × ℚ))
    (s : Settings) :
    (riskfree_curve d0 zc s).2.evaluationDate = dates d0 0
    ∧ (s.evaluationDate ≠ dates d0 0 →
        (riskfree_curve d0 zc s).2.evaluationDate ≠ s.evaluationDate) :=
  ⟨rfl, fun h hh => h hh.symm⟩

/-- Witness for the amended C8. -/
theorem riskfree_curve_evaluation_date_set_witness :
    (⟨mkDate 2020 5 5⟩ : Settings).evaluationDate ≠ dates (mkDate 2022 1 1) 0
    ∧ (riskfree_curve (mkDate 2022 1 1) [] ⟨mkDate 2020 5 5⟩).2.evaluationDate
        = dates (mkDate 2022 1 1) 0
    ∧ (riskfree_curve (mkDate 2022 1 1) [] ⟨mkDate 2020 5 5⟩).2.evaluationDate
        ≠ (⟨mkDate 2020 5 5⟩ : Settings).evaluationDate :=
  ⟨by decide,
    (riskfree_curve_evaluation_date_set (mkDate 2022 1 1) [] ⟨mkDate 2020 5 5⟩).1,
    (riskfree_curve_evaluation_date_set (mkDate 2022 1 1) [] ⟨mkDate 2020 5 5⟩).2 (by decide)⟩

/-- C9: each reported market value is the bond's notional times its clean
price divided by 100 (notional and clean price being the delegated pricing
engine's outputs carried on the bond record). -/
theorem market_values_notional_cleanPrice (bonds : List Bond) (i : Nat)
    (h : i < bonds.length) :
    (market_values bonds).getD i 0
      = (bonds.get ⟨i, h⟩).notional * (bonds.get ⟨i, h⟩).cleanPrice / 100 := by
  unfold market_values
  rw [List.getD_eq_getElem?_getD, List.getElem?_map, List.getElem?_eq_getElem h]
  rfl

/-- Witness for C9 on a one-bond portfolio: 200 × 50 / 100 = 100. -/
theorem market_values_notional_cleanPrice_witness :
    0 < ([(⟨0, 100, mkDate 2020 1 1, mkDate 2030 1 1, "1Y", 5, 3,
        [], [], 200, 50⟩ : Bond)] : List Bond).length
    ∧ (market_values [⟨0, 100, mkDate 2020 1 1, mkDate 2030 1 1, "1Y", 5, 3,
        [], [], 200, 50⟩]).getD 0 0
      = (([(⟨0, 100, mkDate 2020 1 1, mkDate 2030 1 1, "1Y", 5, 3,
          [], [], 200, 50⟩ : Bond)] : List Bond).get ⟨0, by decide⟩).notional
        * (([(⟨0, 100, mkDate 2020 1 1, mkDate 2030 1 1, "1Y", 5, 3,
          [], [], 200, 50⟩ : Bond)] : List Bond).get ⟨0, by decide⟩).cleanPrice / 100
    ∧ (market_values [⟨0, 100, mkDate 2020 1 1, mkDate 2030 1 1, "1Y", 5, 3,
        [], [], 200, 50⟩]).getD 0 0 = 100 := by
  refine ⟨by decide,
    market_values_notional_cleanPrice
      [⟨0, 100, mkDate 2020 1 1, mkDate 2030 1 1, "1Y", 5, 3, [], [], 200, 50⟩] 0 (by decide), ?_⟩
  norm_num [market_values]

/-- C10: events dated strictly before the valuation date are silently
skipped — prepending them to a sorted leg leaves every bucket of both
`cashflows` and `redemptions` unchanged, and no error is raised. -/
theorem pre_valuation_events_dropped (d0 dEnd : Date) (pre leg : List Event)
    (hs : eventsSorted (pre ++ leg)) (hpre : ∀ e ∈ pre, e.date < dates d0 0) :
    cashflows d0 dEnd (pre ++ leg) = some (specBuckets leg d0 dEnd)
    ∧ redemptions d0 dEnd (pre ++ leg) = some (specBuckets leg d0 dEnd) := by
  have heq : specBuckets (pre ++ leg) d0 dEnd = specBuckets leg d0 dEnd := by
    unfold specBuckets
    refine List.map_congr_left fun t _ => ?_
    rw [specBucket_append]
    have hz : specBucket pre (dates d0 t) (dates d0 (t + 1)) = 0 := by
      refine specBucket_eq_zero fun e he => ?_
      have h1 : e.date < dates d0 t :=
        Nat.lt_of_lt_of_le (hpre e he) (dates_le_dates d0 (Nat.zero_le t))
      have hnlo : ¬ dates d0 t ≤ e.date := Nat.not_le_of_lt h1
      simp [inBucket, hnlo]
    rw [hz, zero_add]
  rw [cashflows_eq_spec d0 dEnd _ hs, redemptions_eq_spec d0 dEnd _ hs, heq]
  exact ⟨rfl, rfl⟩

/-- Witness for C10: a coupon dated 2021-06-01, before the 2022-01-01
valuation date, changes nothing and trips no error. -/
theorem pre_valuation_events_dropped_witness :
    eventsSorted ([⟨mkDate 2021 6 1, 7⟩] ++ [⟨mkDate 2022 6 1, 10⟩])
    ∧ (∀ e ∈ [(⟨mkDate 2021 6 1, 7⟩ : Event)], e.date < dates (mkDate 2022 1 1) 0)
    ∧ cashflows (mkDate 2022 1 1) (mkDate 2025 1 1)
        ([⟨mkDate 2021 6 1, 7⟩] ++ [⟨mkDate 2022 6 1, 10⟩])
      = some (specBuckets [⟨mkDate 2022 6 1, 10⟩] (mkDate 2022 1 1) (mkDate 2025 1 1)) :=
  ⟨by decide, by decide,
    (pre_valuation_events_dropped (mkDate 2022 1 1) (mkDate 2025 1 1)
      [⟨mkDate 2021 6 1, 7⟩] [⟨mkDate 2022 6 1, 10⟩] (by decide) (by decide)).1⟩
